import Mathlib

/-!
Verification of the fixed-pool first-fit memory allocator in
`src/custom_memory_allocator.c`.

The allocator state is embedded shallowly:

* the pool is represented by the list of blocks laid out in address order
  (`AllocState.blocks`); a block's starting address is the sum of the sizes
  of the blocks before it, exactly as in the C pool where the next header
  lives at `(unsigned char *)current + current->size`;
* the singly linked free list threaded through the `next_free` fields is
  represented by the list of block starting addresses in link order
  (`AllocState.freeList`); the head pointer is the list head, a block's
  `next_free` is its successor in the list, and `NULL` is the empty tail.
  Allocated blocks carry `next_free = NULL` in the C code (lines 115 and
  136) and correspondingly simply do not appear in the list;
* `size_t` arithmetic is 64-bit and wraps, modelled by explicit `% W`
  with `W = 2 ^ 64` at the two places where the C code adds to a
  caller-controlled quantity (`ALIGN(size + sizeof(BlockHeader))` and
  `total_needed_size + sizeof(BlockHeader) + ALIGNMENT`);
* the platform is LP64 (the source uses `sizeof(void*)` for `ALIGNMENT`
  and a `{size_t; int; pointer}` struct for the header), so
  `ALIGNMENT = 8` and `sizeof(BlockHeader) = 24`;
* the source defines the macro as `POOL_size` (line 32) but uses
  `POOL_SIZE` everywhere else; the intended capacity `1024 * 1024` is
  used for `POOL_SIZE` here.

`my_free` with a pointer that is inside the pool but was not derived from a
block header reads user-data bytes as a `BlockHeader` in C; the content of
those bytes is not part of the allocator state, so such calls (which violate
the documented input contract of `deallocate`) are outside the model: the
reachability relation `Reachable` admits every `deallocate` argument that is
null, out of bounds, or derived from an actual block header.
-/

namespace CustomAllocator

/-- Modulus of `size_t` arithmetic: the source targets a 64-bit platform. -/
def W : Nat := 2 ^ 64

/-- `POOL_SIZE` from the source: `1024 * 1024` bytes. -/
def POOL_SIZE : Nat := 1024 * 1024

/-- `ALIGNMENT = sizeof(void*)` on the LP64 platform the source targets. -/
def ALIGNMENT : Nat := 8

/-- `sizeof(BlockHeader)` on LP64: `size_t` (8) + `int` (4, padded to 8) +
pointer (8) = 24 bytes. -/
def HEADER_SIZE : Nat := 24

/-- The `ALIGN(size)` macro: `((size) + (ALIGNMENT - 1)) & ~(ALIGNMENT - 1)`
in `size_t` arithmetic.  Since `ALIGNMENT = 8 = 2 ^ 3`, masking with `~7`
is rounding down to a multiple of 8, i.e. `/ 8 * 8`. -/
def alignSize (x : Nat) : Nat := (x + (ALIGNMENT - 1)) % W / ALIGNMENT * ALIGNMENT

/-- `total_needed_size` computed by `my_malloc` (lines 92-95):
`ALIGN(size + sizeof(BlockHeader))`, then clamped upward to the minimum
block size `sizeof(BlockHeader) + ALIGNMENT`.  The inner addition is
`size_t` addition and wraps. -/
def totalNeeded (n : Nat) : Nat :=
  let t := alignSize ((n + HEADER_SIZE) % W)
  if t < HEADER_SIZE + ALIGNMENT then HEADER_SIZE + ALIGNMENT else t

/-- A block header: `size` (total bytes, header included) and the
`is_free` flag.  The `next_free` field is represented by the block's
position in `AllocState.freeList` (see the module docstring). -/
structure Block where
  size : Nat
  is_free : Bool
deriving DecidableEq

/-- The global allocator state: `memory_pool` seen as its blocks in address
order, `free_list_head` seen as the chain of free-block addresses in link
order, and the `allocator_initialized` flag. -/
structure AllocState where
  blocks : List Block
  freeList : List Nat
  inited : Bool
deriving DecidableEq

/-- Sum of the sizes of a list of blocks. -/
def sumSizes (bs : List Block) : Nat := (bs.map Block.size).sum

/-- Address reached after walking the given blocks from address `c`,
advancing by each block's `size` (the traversal of `dump_memory_map`). -/
def walkEnd : List Block → Nat → Nat
  | [], c => c
  | b :: bs, c => walkEnd bs (c + b.size)

/-- The start addresses visited by the walk from address `c`. -/
def walkOffsets : List Block → Nat → List Nat
  | [], _ => []
  | b :: bs, c => c :: walkOffsets bs (c + b.size)

/-- Header dereference: the block starting at address `o`, where the blocks
are laid out from address `c`.  `none` means no block starts at `o`. -/
def blockAt : List Block → Nat → Nat → Option Block
  | [], _, _ => none
  | b :: bs, c, o => if c = o then some b else blockAt bs (c + b.size) o

/-- Replace the block starting at address `o` by `f` applied to it
(header writes at that address); identity if no block starts at `o`. -/
def updAt : List Block → Nat → Nat → (Block → List Block) → List Block
  | [], _, _, _ => []
  | b :: bs, c, o, f => if c = o then f b ++ bs else b :: updAt bs (c + b.size) o f

/-- The split in `my_malloc` lines 108-113: the block at `o` becomes an
allocated block of `total` bytes followed by a free remainder. -/
def splitBlock (bs : List Block) (o total : Nat) : List Block :=
  updAt bs 0 o fun b => [Block.mk total false, Block.mk (b.size - total) true]

/-- The whole-block case in `my_malloc` line 128: the block at `o` keeps its
size and is marked allocated. -/
def allocBlock (bs : List Block) (o : Nat) : List Block :=
  updAt bs 0 o fun b => [Block.mk b.size false]

/-- `my_free` line 184: the block at `o` keeps its size and is marked free. -/
def freeBlock (bs : List Block) (o : Nat) : List Block :=
  updAt bs 0 o fun b => [Block.mk b.size true]

/-- The state before anything has run: no headers written, null head,
`allocator_initialized = 0`. -/
def uninitState : AllocState := AllocState.mk [] [] false

/-- The state set up by `my_allocator_init` (lines 66-71): one free block
spanning the pool, the free-list head pointing at it, a null link. -/
def initState : AllocState := AllocState.mk [Block.mk POOL_SIZE true] [0] true

/-- `my_allocator_init` (lines 59-74): idempotent pool setup. -/
def my_allocator_init (s : AllocState) : AllocState :=
  if s.inited = true then s else initState

/-- The first-fit scan of `my_malloc` (lines 98-145) over the free list in
link order.  For each candidate address the header is dereferenced and
`current->is_free && current->size >= total_needed_size` is tested; on a hit
the block is split (room for another block) or consumed whole, and the link
that pointed at it (head or predecessor `next_free`) is retargeted.  Returns
the chosen block address with the updated blocks and free list, or `none` if
the scan falls off the end of the list.  Dereferencing an address with no
header (impossible in reachable states) aborts the scan with `none`. -/
def mallocGo (bs : List Block) (total : Nat) : List Nat → Option (Nat × List Block × List Nat)
  | [] => none
  | o :: rest =>
    match blockAt bs 0 o with
    | none => none
    | some b =>
      if b.is_free = true ∧ total ≤ b.size then
        if (total + HEADER_SIZE + ALIGNMENT) % W ≤ b.size then
          some (o, splitBlock bs o total, (o + total) :: rest)
        else
          some (o, allocBlock bs o, rest)
      else
        match mallocGo bs total rest with
        | none => none
        | some (o2, bs2, rest2) => some (o2, bs2, o :: rest2)

/-- `my_malloc` (lines 82-150).  Auto-initializes, rejects size 0, computes
`total_needed_size`, performs the first-fit scan, and on success returns the
address of the byte after the chosen block's header. -/
def my_malloc (s : AllocState) (n : Nat) : Option Nat × AllocState :=
  let s1 := my_allocator_init s
  if n = 0 then (none, s1)
  else
    match mallocGo s1.blocks (totalNeeded n) s1.freeList with
    | none => (none, s1)
    | some (o, bs2, fl2) =>
        (some (o + HEADER_SIZE), AllocState.mk bs2 fl2 s1.inited)

/-- `my_free` (lines 156-200).  The argument is the user pointer as an
address relative to the pool start (an `Int`, so that addresses before the
pool are representable).  Null and not-yet-initialized calls return at once;
the owning header is derived by subtracting `sizeof(BlockHeader)`; a derived
address outside `[0, POOL_SIZE)` is rejected; an `is_free` block is rejected
(double free); otherwise the block is marked free and pushed onto the head
of the free list.  A derived in-bounds address with no header there would
read user bytes in C; the model leaves the state unchanged and `Reachable`
excludes such calls. -/
def my_free (s : AllocState) (p : Option Int) : AllocState :=
  match p with
  | none => s
  | some q =>
    if s.inited = false then s
    else
      let d : Int := q - (HEADER_SIZE : Int)
      if d < 0 ∨ (POOL_SIZE : Int) ≤ d then s
      else
        match blockAt s.blocks 0 d.toNat with
        | none => s
        | some b =>
          if b.is_free = true then s
          else AllocState.mk (freeBlock s.blocks d.toNat) (d.toNat :: s.freeList) s.inited

/-- Arguments of `deallocate` whose behaviour the source defines on the
modelled state: null, a pointer whose derived header address is out of
bounds, any pointer at all while the allocator is uninitialized, or a
pointer derived from an actual block header.  In-pool pointers not derived
from a header make C read user-data bytes as a header and are excluded. -/
def FreeOk (s : AllocState) (p : Option Int) : Prop :=
  match p with
  | none => True
  | some q =>
      s.inited = false ∨
      q - (HEADER_SIZE : Int) < 0 ∨
      (POOL_SIZE : Int) ≤ q - (HEADER_SIZE : Int) ∨
      (blockAt s.blocks 0 (q - (HEADER_SIZE : Int)).toNat).isSome = true

/-- States reachable from process start by any sequence of
`my_allocator_init`, `my_malloc` and `my_free` calls, the `my_free`
arguments ranging over everything the model covers (`FreeOk`). -/
inductive Reachable : AllocState → Prop
  | base : Reachable uninitState
  | step_init {s : AllocState} : Reachable s → Reachable (my_allocator_init s)
  | step_malloc {s : AllocState} (n : Nat) : Reachable s → Reachable (my_malloc s n).2
  | step_free {s : AllocState} (p : Option Int) :
      Reachable s → FreeOk s p → Reachable (my_free s p)

/-- The allocator invariant for initialized states: the blocks tile the pool
exactly, every block has the minimum legal size and an aligned size, the
free list holds exactly the addresses of free blocks, and it holds each at
most once. -/
structure Wf (s : AllocState) : Prop where
  hsum : sumSizes s.blocks = POOL_SIZE
  hmin : ∀ b ∈ s.blocks, HEADER_SIZE + ALIGNMENT ≤ b.size
  halign : ∀ b ∈ s.blocks, b.size % ALIGNMENT = 0
  hmem : ∀ o, o ∈ s.freeList ↔ ∃ b, blockAt s.blocks 0 o = some b ∧ b.is_free = true
  hnd : s.freeList.Nodup

@[simp]
lemma sumSizes_nil : sumSizes [] = 0 := rfl

@[simp]
lemma sumSizes_cons (b : Block) (bs : List Block) :
    sumSizes (b :: bs) = b.size + sumSizes bs := by
  simp [sumSizes]

@[simp]
lemma sumSizes_append (l r : List Block) :
    sumSizes (l ++ r) = sumSizes l + sumSizes r := by
  simp [sumSizes]

lemma walkEnd_eq (bs : List Block) (c : Nat) : walkEnd bs c = c + sumSizes bs := by
  induction bs generalizing c with
  | nil => simp [walkEnd]
  | cons b bs ih => simp [walkEnd, ih]; omega

lemma walkEnd_le (bs : List Block) (c : Nat) : c ≤ walkEnd bs c := by
  rw [walkEnd_eq]; omega

lemma walkEnd_append (l r : List Block) (c : Nat) :
    walkEnd (l ++ r) c = walkEnd r (walkEnd l c) := by
  simp [walkEnd_eq]; omega

lemma blockAt_lt_start (bs : List Block) (c o : Nat) (h : o < c) :
    blockAt bs c o = none := by
  induction bs generalizing c with
  | nil => rfl
  | cons b bs ih =>
    simp only [blockAt]
    rw [if_neg (by omega)]
    exact ih (c + b.size) (by omega)

lemma blockAt_start_le {bs : List Block} {c o : Nat} {b : Block}
    (h : blockAt bs c o = some b) : c ≤ o := by
  by_contra hc
  rw [blockAt_lt_start bs c o (by omega)] at h
  exact Option.noConfusion h

lemma blockAt_mem {bs : List Block} {c o : Nat} {b : Block}
    (h : blockAt bs c o = some b) : b ∈ bs := by
  induction bs generalizing c with
  | nil => exact Option.noConfusion h
  | cons x bs ih =>
    simp only [blockAt] at h
    by_cases hc : c = o
    · rw [if_pos hc] at h
      cases h
      exact List.mem_cons_self _ _
    · rw [if_neg hc] at h
      exact List.mem_cons_of_mem x (ih h)

lemma blockAt_add_le {bs : List Block} {c o : Nat} {b : Block}
    (h : blockAt bs c o = some b) : o + b.size ≤ walkEnd bs c := by
  induction bs generalizing c with
  | nil => exact Option.noConfusion h
  | cons x bs ih =>
    simp only [blockAt] at h
    by_cases hc : c = o
    · rw [if_pos hc] at h
      cases h
      subst hc
      simp [walkEnd]
      exact walkEnd_le bs (c + b.size)
    · rw [if_neg hc] at h
      simpa [walkEnd] using ih h

lemma blockAt_ge_end (bs : List Block) :
    ∀ c o : Nat, (∀ x ∈ bs, 0 < x.size) → walkEnd bs c ≤ o →
      blockAt bs c o = none := by
  induction bs with
  | nil => intro c o _ _; rfl
  | cons b bs ih =>
    intro c o hpos h
    have hb : 0 < b.size := hpos b (List.mem_cons_self b bs)
    have hc : c + b.size ≤ walkEnd bs (c + b.size) := walkEnd_le bs (c + b.size)
    simp only [walkEnd] at h
    simp only [blockAt]
    rw [if_neg (by omega)]
    exact ih (c + b.size) o (fun x hx => hpos x (List.mem_cons_of_mem b hx)) h

lemma blockAt_append_of_some {l : List Block} (r : List Block) {c o : Nat} {b : Block}
    (h : blockAt l c o = some b) : blockAt (l ++ r) c o = some b := by
  induction l generalizing c with
  | nil => exact Option.noConfusion h
  | cons x l ih =>
    simp only [blockAt] at h ⊢
    by_cases hc : c = o
    · rwa [if_pos hc] at h ⊢
    · rw [if_neg hc] at h ⊢
      exact ih h

lemma blockAt_append_of_none {l : List Block} (r : List Block) {c o : Nat}
    (h : blockAt l c o = none) : blockAt (l ++ r) c o = blockAt r (walkEnd l c) o := by
  induction l generalizing c with
  | nil => simp [walkEnd]
  | cons x l ih =>
    simp only [blockAt, walkEnd] at h ⊢
    by_cases hc : c = o
    · rw [if_pos hc] at h
      exact Option.noConfusion h
    · rw [if_neg hc] at h ⊢
      exact ih h

lemma blockAt_decomp {bs : List Block} {c o : Nat} {b : Block}
    (h : blockAt bs c o = some b) :
    ∃ l r, bs = l ++ b :: r ∧ walkEnd l c = o := by
  induction bs generalizing c with
  | nil => exact Option.noConfusion h
  | cons x bs ih =>
    simp only [blockAt] at h
    by_cases hc : c = o
    · rw [if_pos hc] at h
      cases h
      exact ⟨[], bs, rfl, hc⟩
    · rw [if_neg hc] at h
      obtain ⟨l, r, hbs, hw⟩ := ih h
      exact ⟨x :: l, r, by rw [hbs]; rfl, by simpa [walkEnd] using hw⟩

lemma blockAt_of_decomp (l : List Block) (b : Block) (r : List Block) :
    ∀ c : Nat, (∀ x ∈ l, 0 < x.size) →
      blockAt (l ++ b :: r) c (walkEnd l c) = some b := by
  induction l with
  | nil => intro c _; simp [blockAt, walkEnd]
  | cons x l ih =>
    intro c hpos
    have hx : 0 < x.size := hpos x (List.mem_cons_self x l)
    have hle : c + x.size ≤ walkEnd l (c + x.size) := walkEnd_le l (c + x.size)
    simp only [List.cons_append, blockAt, walkEnd]
    rw [if_neg (by omega)]
    exact ih (c + x.size) (fun y hy => hpos y (List.mem_cons_of_mem x hy))

lemma updAt_decomp (l : List Block) (b : Block) (r : List Block)
    (f : Block → List Block) :
    ∀ c : Nat, (∀ x ∈ l, 0 < x.size) →
      updAt (l ++ b :: r) c (walkEnd l c) f = l ++ f b ++ r := by
  induction l with
  | nil => intro c _; simp [updAt, walkEnd]
  | cons x l ih =>
    intro c hpos
    have hx : 0 < x.size := hpos x (List.mem_cons_self x l)
    have hle : c + x.size ≤ walkEnd l (c + x.size) := walkEnd_le l (c + x.size)
    simp only [List.cons_append, updAt, walkEnd, List.append_eq]
    rw [if_neg (by omega)]
    rw [ih (c + x.size) (fun y hy => hpos y (List.mem_cons_of_mem x hy))]

lemma blockAt_mem_walkOffsets {bs : List Block} {c o : Nat} {b : Block}
    (h : blockAt bs c o = some b) : o ∈ walkOffsets bs c := by
  induction bs generalizing c with
  | nil => exact Option.noConfusion h
  | cons x bs ih =>
    simp only [blockAt] at h
    simp only [walkOffsets, List.mem_cons]
    by_cases hc : c = o
    · exact Or.inl hc.symm
    · rw [if_neg hc] at h
      exact Or.inr (ih h)

lemma walkOffsets_length (bs : List Block) (c : Nat) :
    (walkOffsets bs c).length = bs.length := by
  induction bs generalizing c with
  | nil => rfl
  | cons b bs ih => simp [walkOffsets, ih]

lemma walkOffsets_le {bs : List Block} {c : Nat} :
    ∀ o ∈ walkOffsets bs c, c ≤ o := by
  induction bs generalizing c with
  | nil => simp [walkOffsets]
  | cons b bs ih =>
    intro o ho
    simp only [walkOffsets, List.mem_cons] at ho
    rcases ho with rfl | ho
    · exact le_refl o
    · exact le_trans (by omega) (ih o ho)

lemma walkOffsets_pairwise (bs : List Block) :
    ∀ c : Nat, (∀ x ∈ bs, 0 < x.size) →
      (walkOffsets bs c).Pairwise (· < ·) := by
  induction bs with
  | nil => intro c _; simp [walkOffsets]
  | cons b bs ih =>
    intro c hpos
    have hb : 0 < b.size := hpos b (List.mem_cons_self b bs)
    simp only [walkOffsets, List.pairwise_cons]
    refine ⟨fun o ho => ?_,
      ih (c + b.size) (fun x hx => hpos x (List.mem_cons_of_mem b hx))⟩
    have := walkOffsets_le o ho
    omega

lemma blockAt_interior_none {bs : List Block} {c o o2 : Nat} {b : Block}
    (hpos : ∀ x ∈ bs, 0 < x.size)
    (h : blockAt bs c o = some b) (h1 : o < o2) (h2 : o2 < o + b.size) :
    blockAt bs c o2 = none := by
  obtain ⟨l, r, hbs, hw⟩ := blockAt_decomp h
  subst hbs
  have hposl : ∀ x ∈ l, 0 < x.size := fun x hx =>
    hpos x (List.mem_append_left _ hx)
  have hl : blockAt l c o2 = none := by
    apply blockAt_ge_end l c o2 hposl
    omega
  rw [blockAt_append_of_none (b :: r) hl, hw]
  simp only [blockAt]
  rw [if_neg (by omega)]
  exact blockAt_lt_start r (o + b.size) o2 (by omega)

lemma size_le_sum {bs : List Block} {b : Block} (h : b ∈ bs) :
    b.size ≤ sumSizes bs := by
  induction bs with
  | nil => exact absurd h (List.not_mem_nil b)
  | cons x bs ih =>
    rcases List.mem_cons.mp h with rfl | h
    · simp
    · have := ih h
      simp
      omega

lemma sumSizes_mod (l : List Block) (h : ∀ x ∈ l, x.size % ALIGNMENT = 0) :
    sumSizes l % ALIGNMENT = 0 := by
  induction l with
  | nil => simp
  | cons x l ih =>
    have hx := h x (List.mem_cons_self x l)
    have hl := ih fun y hy => h y (List.mem_cons_of_mem x hy)
    simp only [sumSizes_cons, ALIGNMENT] at hx hl ⊢
    omega

lemma totalNeeded_ge (n : Nat) : HEADER_SIZE + ALIGNMENT ≤ totalNeeded n := by
  simp only [totalNeeded]
  split
  · exact le_refl _
  · omega

lemma totalNeeded_mod (n : Nat) : totalNeeded n % ALIGNMENT = 0 := by
  simp only [totalNeeded]
  split
  · decide
  · simp [alignSize, Nat.mul_mod_left]

lemma mallocGo_none (bs : List Block) (total : Nat) :
    ∀ fl : List Nat,
      (∀ o ∈ fl, ∀ b, blockAt bs 0 o = some b → ¬(b.is_free = true ∧ total ≤ b.size)) →
      mallocGo bs total fl = none := by
  intro fl
  induction fl with
  | nil => intro _; rfl
  | cons o rest ih =>
    intro h
    have hrec := ih fun o2 ho2 b hb => h o2 (List.mem_cons_of_mem o ho2) b hb
    cases hb : blockAt bs 0 o with
    | none => simp only [mallocGo, hb]
    | some b =>
      simp only [mallocGo, hb]
      rw [if_neg (h o (List.mem_cons_self o rest) b hb), hrec]

lemma mallocGo_split (bs : List Block) (total : Nat) :
    ∀ (fp : List Nat) (o : Nat) (suf : List Nat) (b : Block),
      (∀ o2 ∈ fp, ∃ b2, blockAt bs 0 o2 = some b2 ∧
        ¬(b2.is_free = true ∧ total ≤ b2.size)) →
      blockAt bs 0 o = some b → b.is_free = true → total ≤ b.size →
      (total + HEADER_SIZE + ALIGNMENT) % W ≤ b.size →
      mallocGo bs total (fp ++ o :: suf)
        = some (o, splitBlock bs o total, fp ++ (o + total) :: suf) := by
  intro fp
  induction fp with
  | nil =>
    intro o suf b _ hb hfree hfit hsp
    simp only [List.nil_append, mallocGo, hb]
    rw [if_pos ⟨hfree, hfit⟩, if_pos hsp]
  | cons x fp ih =>
    intro o suf b hskip hb hfree hfit hsp
    obtain ⟨bx, hbx, hno⟩ := hskip x (List.mem_cons_self x fp)
    simp only [List.cons_append, mallocGo, hbx, List.append_eq]
    rw [if_neg hno,
      ih o suf b (fun o2 ho2 => hskip o2 (List.mem_cons_of_mem x ho2)) hb hfree hfit hsp]

lemma mallocGo_consume (bs : List Block) (total : Nat) :
    ∀ (fp : List Nat) (o : Nat) (suf : List Nat) (b : Block),
      (∀ o2 ∈ fp, ∃ b2, blockAt bs 0 o2 = some b2 ∧
        ¬(b2.is_free = true ∧ total ≤ b2.size)) →
      blockAt bs 0 o = some b → b.is_free = true → total ≤ b.size →
      b.size < (total + HEADER_SIZE + ALIGNMENT) % W →
      mallocGo bs total (fp ++ o :: suf)
        = some (o, allocBlock bs o, fp ++ suf) := by
  intro fp
  induction fp with
  | nil =>
    intro o suf b _ hb hfree hfit hsp
    simp only [List.nil_append, mallocGo, hb]
    rw [if_pos ⟨hfree, hfit⟩, if_neg (by omega)]
  | cons x fp ih =>
    intro o suf b hskip hb hfree hfit hsp
    obtain ⟨bx, hbx, hno⟩ := hskip x (List.mem_cons_self x fp)
    simp only [List.cons_append, mallocGo, hbx, List.append_eq]
    rw [if_neg hno,
      ih o suf b (fun o2 ho2 => hskip o2 (List.mem_cons_of_mem x ho2)) hb hfree hfit hsp]

lemma mallocGo_some_inv (bs : List Block) (total : Nat) :
    ∀ (fl : List Nat) (o : Nat) (bs2 : List Block) (fl2 : List Nat),
      mallocGo bs total fl = some (o, bs2, fl2) →
      ∃ fp suf b, fl = fp ++ o :: suf ∧
        (∀ o2 ∈ fp, ∃ b2, blockAt bs 0 o2 = some b2 ∧
          ¬(b2.is_free = true ∧ total ≤ b2.size)) ∧
        blockAt bs 0 o = some b ∧ b.is_free = true ∧ total ≤ b.size ∧
        (((total + HEADER_SIZE + ALIGNMENT) % W ≤ b.size ∧
            bs2 = splitBlock bs o total ∧ fl2 = fp ++ (o + total) :: suf) ∨
          (b.size < (total + HEADER_SIZE + ALIGNMENT) % W ∧
            bs2 = allocBlock bs o ∧ fl2 = fp ++ suf)) := by
  intro fl
  induction fl with
  | nil => intro o bs2 fl2 h; exact Option.noConfusion h
  | cons x rest ih =>
    intro o bs2 fl2 h
    cases hb : blockAt bs 0 x with
    | none =>
      simp only [mallocGo, hb] at h
      exact Option.noConfusion h
    | some b =>
      simp only [mallocGo, hb] at h
      by_cases hcond : b.is_free = true ∧ total ≤ b.size
      · rw [if_pos hcond] at h
        by_cases hsp : (total + HEADER_SIZE + ALIGNMENT) % W ≤ b.size
        · rw [if_pos hsp] at h
          simp only [Option.some.injEq, Prod.mk.injEq] at h
          obtain ⟨rfl, rfl, rfl⟩ := h
          exact ⟨[], rest, b, rfl, by simp, hb, hcond.1, hcond.2,
            Or.inl ⟨hsp, rfl, rfl⟩⟩
        · rw [if_neg hsp] at h
          simp only [Option.some.injEq, Prod.mk.injEq] at h
          obtain ⟨rfl, rfl, rfl⟩ := h
          exact ⟨[], rest, b, rfl, by simp, hb, hcond.1, hcond.2,
            Or.inr ⟨by omega, rfl, rfl⟩⟩
      · rw [if_neg hcond] at h
        cases hrec : mallocGo bs total rest with
        | none => rw [hrec] at h; exact Option.noConfusion h
        | some t =>
          obtain ⟨o2, bsx, rest2⟩ := t
          rw [hrec] at h
          simp only [Option.some.injEq, Prod.mk.injEq] at h
          obtain ⟨rfl, rfl, rfl⟩ := h
          obtain ⟨fp, suf, b2, hfl, hskip, hb2, hfree2, hfit2, hbr⟩ :=
            ih o2 bsx rest2 hrec
          refine ⟨x :: fp, suf, b2, by rw [hfl]; rfl, ?_, hb2, hfree2, hfit2, ?_⟩
          · intro o3 ho3
            rcases List.mem_cons.mp ho3 with rfl | ho3
            · exact ⟨b, hb, hcond⟩
            · exact hskip o3 ho3
          · rcases hbr with ⟨h1, h2, h3⟩ | ⟨h1, h2, h3⟩
            · exact Or.inl ⟨h1, h2, by rw [h3]; rfl⟩
            · exact Or.inr ⟨h1, h2, by rw [h3]; rfl⟩

@[simp]
lemma size_mk (n : Nat) (f : Bool) : (Block.mk n f).size = n := rfl

@[simp]
lemma is_free_mk (n : Nat) (f : Bool) : (Block.mk n f).is_free = f := rfl

lemma wf_initState : Wf initState := by
  refine ⟨?_, ?_, ?_, ?_, ?_⟩
  · simp [initState, sumSizes, POOL_SIZE]
  · intro b hb
    simp only [initState, List.mem_singleton] at hb
    subst hb
    decide
  · intro b hb
    simp only [initState, List.mem_singleton] at hb
    subst hb
    decide
  · intro o
    simp only [initState, List.mem_singleton]
    constructor
    · rintro rfl
      exact ⟨Block.mk POOL_SIZE true, by simp [blockAt], rfl⟩
    · rintro ⟨b, hb, -⟩
      simp only [blockAt] at hb
      by_cases h0 : (0 : Nat) = o
      · exact h0.symm
      · rw [if_neg h0] at hb
        exact Option.noConfusion hb
  · simp [initState]

lemma wf_pos {s : AllocState} (hmin : ∀ b ∈ s.blocks, HEADER_SIZE + ALIGNMENT ≤ b.size) :
    ∀ x ∈ s.blocks, 0 < x.size := by
  intro x hx
  have := hmin x hx
  simp only [HEADER_SIZE, ALIGNMENT] at this
  omega

lemma updFlag_blockAt (bs : List Block) (o : Nat) (b : Block) (flag : Bool)
    (hpos : ∀ x ∈ bs, 0 < x.size) (hb : blockAt bs 0 o = some b) :
    blockAt (updAt bs 0 o fun x => [Block.mk x.size flag]) 0 o
        = some (Block.mk b.size flag) ∧
      (∀ x2, x2 ≠ o →
        blockAt (updAt bs 0 o fun x => [Block.mk x.size flag]) 0 x2
          = blockAt bs 0 x2) ∧
      sumSizes (updAt bs 0 o fun x => [Block.mk x.size flag]) = sumSizes bs ∧
      ∀ y ∈ updAt bs 0 o fun x => [Block.mk x.size flag],
        y ∈ bs ∨ y = Block.mk b.size flag := by
  obtain ⟨l, r, hbs, hw⟩ := blockAt_decomp hb
  have hposl : ∀ x ∈ l, 0 < x.size := fun x hx =>
    hpos x (by rw [hbs]; exact List.mem_append_left _ hx)
  have hu : (updAt bs 0 o fun x => [Block.mk x.size flag])
      = l ++ [Block.mk b.size flag] ++ r := by
    rw [hbs, ← hw]
    exact updAt_decomp l b r _ 0 hposl
  refine ⟨?_, ?_, ?_, ?_⟩
  · rw [hu, ← hw]
    have := blockAt_of_decomp l (Block.mk b.size flag) r 0 hposl
    simpa using this
  · intro x2 hx2
    rw [hu, hbs, List.append_assoc]
    cases hl : blockAt l 0 x2 with
    | some bl =>
      rw [blockAt_append_of_some _ hl, blockAt_append_of_some _ hl]
    | none =>
      rw [blockAt_append_of_none _ hl, blockAt_append_of_none _ hl, hw]
      simp only [List.cons_append, List.nil_append, blockAt, size_mk]
      rw [if_neg (fun hh => hx2 hh.symm), if_neg (fun hh => hx2 hh.symm)]
      rfl
  · rw [hu, hbs]
    simp [sumSizes_append]
  · intro y hy
    rw [hu] at hy
    simp only [List.append_assoc, List.cons_append, List.nil_append,
      List.mem_append, List.mem_cons] at hy
    rcases hy with hy | hy | hy
    · exact Or.inl (by rw [hbs]; exact List.mem_append_left _ hy)
    · exact Or.inr hy
    · exact Or.inl (by rw [hbs]; exact List.mem_append_right _ (List.mem_cons_of_mem _ hy))

lemma nodup_middle_facts {fp suf : List Nat} {o : Nat}
    (hnd : (fp ++ o :: suf).Nodup) :
    o ∉ fp ∧ o ∉ suf ∧ (fp ++ suf).Nodup := by
  rw [List.nodup_middle, List.nodup_cons] at hnd
  obtain ⟨hno, hnfs⟩ := hnd
  simp only [List.mem_append] at hno
  exact ⟨fun hh => hno (Or.inl hh), fun hh => hno (Or.inr hh), hnfs⟩

lemma wf_splitState (s : AllocState) (h : Wf s) (o total : Nat) (b : Block)
    (hb : blockAt s.blocks 0 o = some b)
    (ht32 : HEADER_SIZE + ALIGNMENT ≤ total)
    (htm : total % ALIGNMENT = 0)
    (hfit : total + HEADER_SIZE + ALIGNMENT ≤ b.size)
    (fp suf : List Nat) (hfl : s.freeList = fp ++ o :: suf) :
    Wf (AllocState.mk (splitBlock s.blocks o total)
      (fp ++ (o + total) :: suf) s.inited) := by
  obtain ⟨hsum, hmin, halign, hmem, hnd⟩ := h
  have hpos : ∀ x ∈ s.blocks, 0 < x.size := wf_pos hmin
  obtain ⟨l, r, hbs, hw⟩ := blockAt_decomp hb
  have hposl : ∀ x ∈ l, 0 < x.size := fun x hx =>
    hpos x (by rw [hbs]; exact List.mem_append_left _ hx)
  have hbmem : b ∈ s.blocks := blockAt_mem hb
  have hbal : b.size % ALIGNMENT = 0 := halign b hbmem
  simp only [HEADER_SIZE, ALIGNMENT] at ht32 hfit htm hbal
  have htpos : 0 < total := by omega
  have htlt : total < b.size := by omega
  have hsplit : splitBlock s.blocks o total
      = l ++ [Block.mk total false, Block.mk (b.size - total) true] ++ r := by
    rw [splitBlock, hbs, ← hw]
    exact updAt_decomp l b r _ 0 hposl
  have hA1 : blockAt (splitBlock s.blocks o total) 0 o = some (Block.mk total false) := by
    rw [hsplit, ← hw]
    have := blockAt_of_decomp l (Block.mk total false)
      (Block.mk (b.size - total) true :: r) 0 hposl
    simpa using this
  have hA2 : blockAt (splitBlock s.blocks o total) 0 (o + total)
      = some (Block.mk (b.size - total) true) := by
    have hposl2 : ∀ x ∈ l ++ [Block.mk total false], 0 < x.size := by
      intro x hx
      rcases List.mem_append.mp hx with hx | hx
      · exact hposl x hx
      · simp only [List.mem_singleton] at hx
        subst hx
        simpa using htpos
    have hw2 : walkEnd (l ++ [Block.mk total false]) 0 = o + total := by
      rw [walkEnd_append]
      simp [walkEnd, hw]
    have := blockAt_of_decomp (l ++ [Block.mk total false])
      (Block.mk (b.size - total) true) r 0 hposl2
    rw [hw2] at this
    rw [hsplit]
    simpa using this
  have hOther : ∀ x : Nat, x ≠ o → x ≠ o + total →
      blockAt (splitBlock s.blocks o total) 0 x = blockAt s.blocks 0 x := by
    intro x hx1 hx2
    rw [hsplit, hbs, List.append_assoc]
    cases hl : blockAt l 0 x with
    | some bl =>
      rw [blockAt_append_of_some _ hl, blockAt_append_of_some _ hl]
    | none =>
      rw [blockAt_append_of_none _ hl, blockAt_append_of_none _ hl, hw]
      simp only [List.cons_append, List.nil_append, blockAt, size_mk]
      rw [if_neg (fun hh => hx1 hh.symm), if_neg (fun hh => hx2 hh.symm),
        if_neg (fun hh => hx1 hh.symm)]
      have harith : o + total + (b.size - total) = o + b.size := by omega
      rw [harith]
      rfl
  have hnotin : (o + total) ∉ s.freeList := by
    intro hmem2
    obtain ⟨b2, hb2, -⟩ := (hmem (o + total)).mp hmem2
    rw [blockAt_interior_none hpos hb (by omega) (by omega)] at hb2
    exact Option.noConfusion hb2
  have hndf := hnd
  rw [hfl] at hndf
  obtain ⟨hofp, hosuf, hfs⟩ := nodup_middle_facts hndf
  refine ⟨?_, ?_, ?_, ?_, ?_⟩ <;> dsimp only
  · rw [hsplit]
    have hold := hsum
    rw [hbs] at hold
    simp only [sumSizes_append, sumSizes_cons, sumSizes_nil, size_mk] at hold ⊢
    omega
  · intro x hx
    rw [hsplit] at hx
    simp only [List.append_assoc, List.cons_append, List.nil_append,
      List.mem_append, List.mem_cons] at hx
    simp only [HEADER_SIZE, ALIGNMENT]
    rcases hx with hx | hx | hx | hx
    · have hxm : x ∈ s.blocks := by rw [hbs]; exact List.mem_append_left _ hx
      have := hmin x hxm
      simp only [HEADER_SIZE, ALIGNMENT] at this
      omega
    · subst hx; simpa using ht32
    · subst hx; simp; omega
    · have hxm : x ∈ s.blocks := by
        rw [hbs]; exact List.mem_append_right _ (List.mem_cons_of_mem _ hx)
      have := hmin x hxm
      simp only [HEADER_SIZE, ALIGNMENT] at this
      omega
  · intro x hx
    rw [hsplit] at hx
    simp only [List.append_assoc, List.cons_append, List.nil_append,
      List.mem_append, List.mem_cons] at hx
    simp only [ALIGNMENT]
    rcases hx with hx | hx | hx | hx
    · have hxm : x ∈ s.blocks := by rw [hbs]; exact List.mem_append_left _ hx
      have := halign x hxm
      simp only [ALIGNMENT] at this
      omega
    · subst hx; simpa using htm
    · subst hx; simp; omega
    · have hxm : x ∈ s.blocks := by
        rw [hbs]; exact List.mem_append_right _ (List.mem_cons_of_mem _ hx)
      have := halign x hxm
      simp only [ALIGNMENT] at this
      omega
  · intro x
    by_cases hx1 : x = o + total
    · subst hx1
      apply iff_of_true
      · simp
      · exact ⟨Block.mk (b.size - total) true, hA2, rfl⟩
    · by_cases hx2 : x = o
      · subst hx2
        apply iff_of_false
        · simp only [List.mem_append, List.mem_cons]
          rintro (hcon | hcon | hcon)
          · exact hofp hcon
          · omega
          · exact hosuf hcon
        · rintro ⟨b2, hb2, hfree2⟩
          rw [hA1] at hb2
          cases hb2
          simp at hfree2
      · have hmemx := hmem x
        rw [hfl] at hmemx
        rw [hOther x hx2 hx1]
        constructor
        · intro hin
          apply hmemx.mp
          simp only [List.mem_append, List.mem_cons] at hin ⊢
          rcases hin with hh | hh | hh
          · exact Or.inl hh
          · exact absurd hh hx1
          · exact Or.inr (Or.inr hh)
        · intro hex
          have := hmemx.mpr hex
          simp only [List.mem_append, List.mem_cons] at this ⊢
          rcases this with hh | hh | hh
          · exact Or.inl hh
          · exact absurd hh hx2
          · exact Or.inr (Or.inr hh)
  · rw [List.nodup_middle, List.nodup_cons]
    refine ⟨?_, hfs⟩
    intro hcon
    apply hnotin
    rw [hfl]
    simp only [List.mem_append, List.mem_cons] at hcon ⊢
    tauto

lemma W_eq : W = 18446744073709551616 := by norm_num [W]

lemma POOL_SIZE_eq : POOL_SIZE = 1048576 := by norm_num [POOL_SIZE]

lemma wf_consumeState (s : AllocState) (h : Wf s) (o : Nat) (b : Block)
    (hb : blockAt s.blocks 0 o = some b)
    (fp suf : List Nat) (hfl : s.freeList = fp ++ o :: suf) :
    Wf (AllocState.mk (allocBlock s.blocks o) (fp ++ suf) s.inited) := by
  obtain ⟨hsum, hmin, halign, hmem, hnd⟩ := h
  have hpos := wf_pos hmin
  obtain ⟨hB1, hB2, hSum, hMem⟩ := updFlag_blockAt s.blocks o b false hpos hb
  have hB1' : blockAt (allocBlock s.blocks o) 0 o = some (Block.mk b.size false) := hB1
  have hB2' : ∀ x2, x2 ≠ o →
      blockAt (allocBlock s.blocks o) 0 x2 = blockAt s.blocks 0 x2 := hB2
  have hSum' : sumSizes (allocBlock s.blocks o) = sumSizes s.blocks := hSum
  have hMem' : ∀ y ∈ allocBlock s.blocks o,
      y ∈ s.blocks ∨ y = Block.mk b.size false := hMem
  have hndf := hnd
  rw [hfl] at hndf
  obtain ⟨hofp, hosuf, hfs⟩ := nodup_middle_facts hndf
  refine ⟨?_, ?_, ?_, ?_, ?_⟩ <;> dsimp only
  · exact hSum'.trans hsum
  · intro x hx
    rcases hMem' x hx with hx2 | hx2
    · exact hmin x hx2
    · subst hx2
      simpa using hmin b (blockAt_mem hb)
  · intro x hx
    rcases hMem' x hx with hx2 | hx2
    · exact halign x hx2
    · subst hx2
      simpa using halign b (blockAt_mem hb)
  · intro x
    by_cases hx : x = o
    · subst hx
      apply iff_of_false
      · simp only [List.mem_append]
        rintro (hc | hc)
        · exact hofp hc
        · exact hosuf hc
      · rintro ⟨b2, hb2, hfree2⟩
        rw [hB1'] at hb2
        cases hb2
        simp at hfree2
    · have hmemx := hmem x
      rw [hfl] at hmemx
      rw [hB2' x hx]
      constructor
      · intro hin
        apply hmemx.mp
        simp only [List.mem_append, List.mem_cons] at hin ⊢
        tauto
      · intro hex
        have := hmemx.mpr hex
        simp only [List.mem_append, List.mem_cons] at this ⊢
        rcases this with hh | hh | hh
        · exact Or.inl hh
        · exact absurd hh hx
        · exact Or.inr hh
  · exact hfs

lemma wf_freeState (s : AllocState) (h : Wf s) (o : Nat) (b : Block)
    (hb : blockAt s.blocks 0 o = some b) (hnf : b.is_free = false) :
    Wf (AllocState.mk (freeBlock s.blocks o) (o :: s.freeList) s.inited) := by
  obtain ⟨hsum, hmin, halign, hmem, hnd⟩ := h
  have hpos := wf_pos hmin
  obtain ⟨hB1, hB2, hSum, hMem⟩ := updFlag_blockAt s.blocks o b true hpos hb
  have hB1' : blockAt (freeBlock s.blocks o) 0 o = some (Block.mk b.size true) := hB1
  have hB2' : ∀ x2, x2 ≠ o →
      blockAt (freeBlock s.blocks o) 0 x2 = blockAt s.blocks 0 x2 := hB2
  have hSum' : sumSizes (freeBlock s.blocks o) = sumSizes s.blocks := hSum
  have hMem' : ∀ y ∈ freeBlock s.blocks o,
      y ∈ s.blocks ∨ y = Block.mk b.size true := hMem
  have honotin : o ∉ s.freeList := by
    intro hin
    obtain ⟨b2, hb2, hfree2⟩ := (hmem o).mp hin
    rw [hb] at hb2
    cases hb2
    rw [hnf] at hfree2
    exact Bool.noConfusion hfree2
  refine ⟨?_, ?_, ?_, ?_, ?_⟩ <;> dsimp only
  · exact hSum'.trans hsum
  · intro x hx
    rcases hMem' x hx with hx2 | hx2
    · exact hmin x hx2
    · subst hx2
      simpa using hmin b (blockAt_mem hb)
  · intro x hx
    rcases hMem' x hx with hx2 | hx2
    · exact halign x hx2
    · subst hx2
      simpa using halign b (blockAt_mem hb)
  · intro x
    by_cases hx : x = o
    · subst hx
      apply iff_of_true
      · exact List.mem_cons_self _ _
      · exact ⟨Block.mk b.size true, hB1', rfl⟩
    · rw [List.mem_cons, hB2' x hx]
      constructor
      · rintro (rfl | hin)
        · exact absurd rfl hx
        · exact (hmem x).mp hin
      · intro hex
        exact Or.inr ((hmem x).mpr hex)
  · exact List.nodup_cons.mpr ⟨honotin, hnd⟩

/-- The global invariant carried through reachability: either nothing has
run yet, or the allocator is initialized and well formed. -/
def Inv (s : AllocState) : Prop := s = uninitState ∨ (s.inited = true ∧ Wf s)

lemma init_of_inited {s : AllocState} (hi : s.inited = true) :
    my_allocator_init s = s := by
  rw [my_allocator_init, if_pos hi]

lemma wf_after_init {s : AllocState} (h : Inv s) :
    (my_allocator_init s).inited = true ∧ Wf (my_allocator_init s) := by
  rcases h with rfl | ⟨hi, hw⟩
  · exact ⟨rfl, wf_initState⟩
  · rw [init_of_inited hi]
    exact ⟨hi, hw⟩

lemma inv_malloc {s : AllocState} (h : Inv s) (n : Nat) : Inv (my_malloc s n).2 := by
  obtain ⟨hi1, hw1⟩ := wf_after_init h
  right
  by_cases hn : n = 0
  · subst hn
    exact ⟨hi1, hw1⟩
  · cases hgo : mallocGo (my_allocator_init s).blocks (totalNeeded n)
        (my_allocator_init s).freeList with
    | none =>
      have hst : (my_malloc s n).2 = my_allocator_init s := by
        simp only [my_malloc, if_neg hn, hgo]
      rw [hst]
      exact ⟨hi1, hw1⟩
    | some t =>
      obtain ⟨o, bs2, fl2⟩ := t
      have hst : (my_malloc s n).2
          = AllocState.mk bs2 fl2 (my_allocator_init s).inited := by
        simp only [my_malloc, if_neg hn, hgo]
      rw [hst]
      obtain ⟨fp, suf, b, hfl, hskip, hbst, hfree, hfit, hbr⟩ :=
        mallocGo_some_inv _ _ _ o bs2 fl2 hgo
      have hbsize : b.size ≤ POOL_SIZE := by
        rw [← hw1.hsum]
        exact size_le_sum (blockAt_mem hbst)
      have hmod : (totalNeeded n + HEADER_SIZE + ALIGNMENT) % W
          = totalNeeded n + HEADER_SIZE + ALIGNMENT := by
        apply Nat.mod_eq_of_lt
        rw [POOL_SIZE_eq] at hbsize
        simp only [HEADER_SIZE, ALIGNMENT, W_eq]
        omega
      rcases hbr with ⟨hsp, rfl, rfl⟩ | ⟨hsp, rfl, rfl⟩
      · refine ⟨hi1, ?_⟩
        rw [hmod] at hsp
        exact wf_splitState (my_allocator_init s) hw1 o (totalNeeded n) b hbst
          (totalNeeded_ge n) (totalNeeded_mod n) hsp fp suf hfl
      · refine ⟨hi1, ?_⟩
        exact wf_consumeState (my_allocator_init s) hw1 o b hbst fp suf hfl

lemma inv_free {s : AllocState} (h : Inv s) (p : Option Int) :
    Inv (my_free s p) := by
  cases p with
  | none => exact h
  | some q =>
    rcases h with rfl | ⟨hi, hw⟩
    · exact Or.inl rfl
    · right
      have hni : ¬ s.inited = false := by simp [hi]
      by_cases hd : (q - (HEADER_SIZE : Int) < 0 ∨ (POOL_SIZE : Int) ≤ q - (HEADER_SIZE : Int))
      · have hst : my_free s (some q) = s := by
          simp only [my_free, if_neg hni, if_pos hd]
        rw [hst]
        exact ⟨hi, hw⟩
      · cases hba : blockAt s.blocks 0 (q - (HEADER_SIZE : Int)).toNat with
        | none =>
          have hst : my_free s (some q) = s := by
            simp only [my_free, if_neg hni, if_neg hd, hba]
          rw [hst]
          exact ⟨hi, hw⟩
        | some b =>
          by_cases hbf : b.is_free = true
          · have hst : my_free s (some q) = s := by
              simp only [my_free, if_neg hni, if_neg hd, hba, if_pos hbf]
            rw [hst]
            exact ⟨hi, hw⟩
          · have hbf2 : b.is_free = false := by
              cases hbfv : b.is_free
              · rfl
              · exact absurd hbfv hbf
            have hst : my_free s (some q)
                = AllocState.mk (freeBlock s.blocks (q - (HEADER_SIZE : Int)).toNat)
                    ((q - (HEADER_SIZE : Int)).toNat :: s.freeList) s.inited := by
              simp only [my_free, if_neg hni, if_neg hd, hba, if_neg hbf]
            rw [hst]
            exact ⟨hi, wf_freeState s hw _ b hba hbf2⟩

lemma reachable_inv {s : AllocState} (h : Reachable s) : Inv s := by
  induction h with
  | base => exact Or.inl rfl
  | step_init h ih => exact Or.inr (wf_after_init ih)
  | step_malloc n h ih => exact inv_malloc ih n
  | step_free p h hok ih => exact inv_free ih p

lemma reachable_wf {s : AllocState} (h : Reachable s) (hi : s.inited = true) :
    Wf s := by
  rcases reachable_inv h with rfl | ⟨-, hw⟩
  · exact absurd hi (by decide)
  · exact hw

/-- C1: Coverage invariant — in every reachable initialized state, walking
the pool from its first byte and repeatedly advancing by the current block's
size visits each block exactly once (the visited start addresses are
strictly increasing, in particular pairwise distinct, and there are exactly
as many of them as blocks) and lands exactly on the pool's end
`POOL_SIZE`: the block sizes partition the pool with no gaps and no
overlaps. -/
theorem coverage_invariant (s : AllocState) (hs : Reachable s)
    (hi : s.inited = true) :
    walkEnd s.blocks 0 = POOL_SIZE ∧
      (walkOffsets s.blocks 0).Pairwise (· < ·) ∧
      (walkOffsets s.blocks 0).length = s.blocks.length := by
  have hw := reachable_wf hs hi
  have hpos := wf_pos hw.hmin
  refine ⟨?_, walkOffsets_pairwise s.blocks 0 hpos, walkOffsets_length s.blocks 0⟩
  rw [walkEnd_eq]
  simpa using hw.hsum

/-- C1 witness: the invariant instantiated at the freshly initialized pool. -/
theorem coverage_invariant_witness :
    walkEnd initState.blocks 0 = POOL_SIZE ∧
      (walkOffsets initState.blocks 0).Pairwise (· < ·) ∧
      (walkOffsets initState.blocks 0).length = initState.blocks.length :=
  coverage_invariant initState (Reachable.step_init Reachable.base) rfl

/-- C2: Free-list consistency — in every reachable initialized state a block
address is on the free list (i.e. reachable from the head by `next_free`
links) iff a block starts there and its `is_free` flag is true; the list
holds each address at most once (no cycles are representable and none can
arise), and its length is at most the number of blocks. -/
theorem free_list_consistent (s : AllocState) (hs : Reachable s)
    (hi : s.inited = true) :
    (∀ o, o ∈ s.freeList ↔
        ∃ b, blockAt s.blocks 0 o = some b ∧ b.is_free = true) ∧
      s.freeList.Nodup ∧ s.freeList.length ≤ s.blocks.length := by
  have hw := reachable_wf hs hi
  refine ⟨hw.hmem, hw.hnd, ?_⟩
  have hsub : s.freeList ⊆ walkOffsets s.blocks 0 := by
    intro o ho
    obtain ⟨b, hb, -⟩ := (hw.hmem o).mp ho
    exact blockAt_mem_walkOffsets hb
  calc s.freeList.length ≤ (walkOffsets s.blocks 0).length :=
        (hw.hnd.subperm hsub).length_le
    _ = s.blocks.length := walkOffsets_length s.blocks 0

/-- C2 witness: consistency instantiated at the freshly initialized pool. -/
theorem free_list_consistent_witness :
    (∀ o, o ∈ initState.freeList ↔
        ∃ b, blockAt initState.blocks 0 o = some b ∧ b.is_free = true) ∧
      initState.freeList.Nodup ∧
      initState.freeList.length ≤ initState.blocks.length :=
  free_list_consistent initState (Reachable.step_init Reachable.base) rfl

/-- C3: Split correctness — if `allocate(n)` (with `n > 0`) selects by first
fit the free block `b` at address `o` (every earlier free-list entry is too
small) and `b.size ≥ needed(n) + header + alignment`, then the call returns
the handle `o + header`, replaces `b` by a leading ALLOCATED block of
exactly `needed(n)` bytes immediately followed by a FREE block of
`b.size - needed(n)` bytes, and the trailing block takes `b`'s former slot
in the free list, inheriting its old `next_free` chain `suf`. -/
theorem malloc_split_correct (s : AllocState) (hs : Reachable s)
    (hi : s.inited = true) (n : Nat) (hn : 0 < n) (o : Nat) (b : Block)
    (fp suf : List Nat) (l r : List Block)
    (hfl : s.freeList = fp ++ o :: suf)
    (hskip : ∀ o2 ∈ fp, ∀ b2, blockAt s.blocks 0 o2 = some b2 →
      b2.size < totalNeeded n)
    (hbs : s.blocks = l ++ b :: r) (ho : walkEnd l 0 = o)
    (hfit : totalNeeded n + HEADER_SIZE + ALIGNMENT ≤ b.size) :
    (my_malloc s n).1 = some (o + HEADER_SIZE) ∧
      (my_malloc s n).2.blocks
        = l ++ Block.mk (totalNeeded n) false
            :: Block.mk (b.size - totalNeeded n) true :: r ∧
      (my_malloc s n).2.freeList = fp ++ (o + totalNeeded n) :: suf := by
  have hw := reachable_wf hs hi
  have hpos := wf_pos hw.hmin
  have hposl : ∀ x ∈ l, 0 < x.size := fun x hx =>
    hpos x (by rw [hbs]; exact List.mem_append_left _ hx)
  have hb : blockAt s.blocks 0 o = some b := by
    rw [hbs, ← ho]
    exact blockAt_of_decomp l b r 0 hposl
  have hofl : o ∈ s.freeList := by rw [hfl]; simp
  obtain ⟨b2, hb2, hbfree⟩ := (hw.hmem o).mp hofl
  rw [hb] at hb2
  cases hb2
  have hskip2 : ∀ o2 ∈ fp, ∃ bx, blockAt s.blocks 0 o2 = some bx ∧
      ¬(bx.is_free = true ∧ totalNeeded n ≤ bx.size) := by
    intro o2 ho2
    have ho2fl : o2 ∈ s.freeList := by
      rw [hfl]; exact List.mem_append_left _ ho2
    obtain ⟨bx, hbx, hbxf⟩ := (hw.hmem o2).mp ho2fl
    refine ⟨bx, hbx, fun hc => ?_⟩
    have h1 := hskip o2 ho2 bx hbx
    have h2 := hc.2
    omega
  have hfit1 : totalNeeded n ≤ b.size := by
    simp only [HEADER_SIZE, ALIGNMENT] at hfit
    omega
  have hbsize : b.size ≤ POOL_SIZE := by
    rw [← hw.hsum]
    exact size_le_sum (blockAt_mem hb)
  have hmod : (totalNeeded n + HEADER_SIZE + ALIGNMENT) % W
      = totalNeeded n + HEADER_SIZE + ALIGNMENT := by
    apply Nat.mod_eq_of_lt
    have h1 : totalNeeded n ≤ POOL_SIZE := le_trans hfit1 hbsize
    rw [POOL_SIZE_eq] at h1
    simp only [HEADER_SIZE, ALIGNMENT, W_eq]
    omega
  have hsp : (totalNeeded n + HEADER_SIZE + ALIGNMENT) % W ≤ b.size := by
    rw [hmod]; exact hfit
  have hgo := mallocGo_split s.blocks (totalNeeded n) fp o suf b hskip2 hb hbfree hfit1 hsp
  have hinit : my_allocator_init s = s := init_of_inited hi
  have hsplitdec : splitBlock s.blocks o (totalNeeded n)
      = l ++ [Block.mk (totalNeeded n) false,
          Block.mk (b.size - totalNeeded n) true] ++ r := by
    rw [splitBlock, hbs, ← ho]
    exact updAt_decomp l b r _ 0 hposl
  have hres : my_malloc s n
      = (some (o + HEADER_SIZE),
          AllocState.mk (splitBlock s.blocks o (totalNeeded n))
            (fp ++ (o + totalNeeded n) :: suf) s.inited) := by
    simp only [my_malloc, hinit, if_neg (Nat.pos_iff_ne_zero.mp hn), hfl, hgo]
  rw [hres]
  refine ⟨rfl, ?_, rfl⟩
  dsimp only
  rw [hsplitdec]
  simp

/-- C3 witness: the very first allocation of 100 bytes splits the initial
pool-spanning free block into a 128-byte allocated block and a free
remainder. -/
theorem malloc_split_correct_witness :
    (my_malloc initState 100).1 = some 24 ∧
      (my_malloc initState 100).2.blocks
        = [Block.mk 128 false, Block.mk 1048448 true] ∧
      (my_malloc initState 100).2.freeList = [128] := by
  have h := malloc_split_correct initState (Reachable.step_init Reachable.base)
    rfl 100 (by decide) 0 (Block.mk POOL_SIZE true) [] [] [] [] rfl
    (fun o2 ho2 b2 _ => absurd ho2 (List.not_mem_nil o2)) rfl rfl (by decide)
  exact ⟨h.1.trans (by decide), h.2.1.trans (by decide), h.2.2.trans (by decide)⟩

/-- C4: No-split consume — if `allocate(n)` (with `n > 0`) selects by first
fit the free block `b` at address `o` and
`needed(n) ≤ b.size < needed(n) + header + alignment`, the whole block is
handed out: its size stays `b.size` (not shrunk to `needed(n)`), it becomes
ALLOCATED in place (no new block is created), and it is unlinked from the
free list by joining its predecessor chain `fp` to its old `next_free`
chain `suf`. -/
theorem malloc_consume_correct (s : AllocState) (hs : Reachable s)
    (hi : s.inited = true) (n : Nat) (hn : 0 < n) (o : Nat) (b : Block)
    (fp suf : List Nat) (l r : List Block)
    (hfl : s.freeList = fp ++ o :: suf)
    (hskip : ∀ o2 ∈ fp, ∀ b2, blockAt s.blocks 0 o2 = some b2 →
      b2.size < totalNeeded n)
    (hbs : s.blocks = l ++ b :: r) (ho : walkEnd l 0 = o)
    (hfit1 : totalNeeded n ≤ b.size)
    (hfit2 : b.size < totalNeeded n + HEADER_SIZE + ALIGNMENT) :
    (my_malloc s n).1 = some (o + HEADER_SIZE) ∧
      (my_malloc s n).2.blocks = l ++ Block.mk b.size false :: r ∧
      (my_malloc s n).2.freeList = fp ++ suf := by
  have hw := reachable_wf hs hi
  have hpos := wf_pos hw.hmin
  have hposl : ∀ x ∈ l, 0 < x.size := fun x hx =>
    hpos x (by rw [hbs]; exact List.mem_append_left _ hx)
  have hb : blockAt s.blocks 0 o = some b := by
    rw [hbs, ← ho]
    exact blockAt_of_decomp l b r 0 hposl
  have hofl : o ∈ s.freeList := by rw [hfl]; simp
  obtain ⟨b2, hb2, hbfree⟩ := (hw.hmem o).mp hofl
  rw [hb] at hb2
  cases hb2
  have hskip2 : ∀ o2 ∈ fp, ∃ bx, blockAt s.blocks 0 o2 = some bx ∧
      ¬(bx.is_free = true ∧ totalNeeded n ≤ bx.size) := by
    intro o2 ho2
    have ho2fl : o2 ∈ s.freeList := by
      rw [hfl]; exact List.mem_append_left _ ho2
    obtain ⟨bx, hbx, hbxf⟩ := (hw.hmem o2).mp ho2fl
    refine ⟨bx, hbx, fun hc => ?_⟩
    have h1 := hskip o2 ho2 bx hbx
    have h2 := hc.2
    omega
  have hbsize : b.size ≤ POOL_SIZE := by
    rw [← hw.hsum]
    exact size_le_sum (blockAt_mem hb)
  have hmod : (totalNeeded n + HEADER_SIZE + ALIGNMENT) % W
      = totalNeeded n + HEADER_SIZE + ALIGNMENT := by
    apply Nat.mod_eq_of_lt
    have h1 : totalNeeded n ≤ POOL_SIZE := le_trans hfit1 hbsize
    rw [POOL_SIZE_eq] at h1
    simp only [HEADER_SIZE, ALIGNMENT, W_eq]
    omega
  have hsp : b.size < (totalNeeded n + HEADER_SIZE + ALIGNMENT) % W := by
    rw [hmod]; exact hfit2
  have hgo := mallocGo_consume s.blocks (totalNeeded n) fp o suf b hskip2 hb hbfree hfit1 hsp
  have hinit : my_allocator_init s = s := init_of_inited hi
  have hallocdec : allocBlock s.blocks o = l ++ [Block.mk b.size false] ++ r := by
    rw [allocBlock, hbs, ← ho]
    exact updAt_decomp l b r _ 0 hposl
  have hres : my_malloc s n
      = (some (o + HEADER_SIZE),
          AllocState.mk (allocBlock s.blocks o) (fp ++ suf) s.inited) := by
    simp only [my_malloc, hinit, if_neg (Nat.pos_iff_ne_zero.mp hn), hfl, hgo]
  rw [hres]
  refine ⟨rfl, ?_, rfl⟩
  dsimp only
  rw [hallocdec]
  simp

/-- C4 witness: requesting 1048552 bytes from the initial pool needs
exactly 1048576 bytes, leaving no room for a remainder block, so the whole
pool-spanning block is handed out unshrunk and the free list empties. -/
theorem malloc_consume_correct_witness :
    (my_malloc initState 1048552).1 = some 24 ∧
      (my_malloc initState 1048552).2.blocks = [Block.mk 1048576 false] ∧
      (my_malloc initState 1048552).2.freeList = [] := by
  have h := malloc_consume_correct initState (Reachable.step_init Reachable.base)
    rfl 1048552 (by decide) 0 (Block.mk POOL_SIZE true) [] [] [] [] rfl
    (fun o2 ho2 b2 _ => absurd ho2 (List.not_mem_nil o2)) rfl rfl
    (by decide) (by decide)
  exact ⟨h.1.trans (by decide), h.2.1.trans (by decide), h.2.2.trans (by decide)⟩

/-- C5: First-fit selection — whenever `allocate(n)` with `n > 0` succeeds
on a reachable initialized state, the handle it returns is
`o + header_size` for the first address `o` in current free-list link order
whose block has `size ≥ needed(n)`; every entry before `o` in link order is
a free block of size strictly below `needed(n)`. -/
theorem malloc_first_fit (s : AllocState) (hs : Reachable s)
    (hi : s.inited = true) (n : Nat) (hn : 0 < n) (p : Nat)
    (hp : (my_malloc s n).1 = some p) :
    ∃ fp o suf b, s.freeList = fp ++ o :: suf ∧ p = o + HEADER_SIZE ∧
      blockAt s.blocks 0 o = some b ∧ b.is_free = true ∧
      totalNeeded n ≤ b.size ∧
      ∀ o2 ∈ fp, ∃ b2, blockAt s.blocks 0 o2 = some b2 ∧
        b2.is_free = true ∧ b2.size < totalNeeded n := by
  have hw := reachable_wf hs hi
  have hinit : my_allocator_init s = s := init_of_inited hi
  have hn' : ¬ n = 0 := by omega
  cases hgo : mallocGo s.blocks (totalNeeded n) s.freeList with
  | none =>
    have hnone : (my_malloc s n).1 = none := by
      simp only [my_malloc, hinit, if_neg hn', hgo]
    rw [hnone] at hp
    exact Option.noConfusion hp
  | some t =>
    obtain ⟨o, bs2, fl2⟩ := t
    have hsome : (my_malloc s n).1 = some (o + HEADER_SIZE) := by
      simp only [my_malloc, hinit, if_neg hn', hgo]
    have hp2 : p = o + HEADER_SIZE := by
      rw [hsome] at hp
      exact (Option.some.inj hp).symm
    obtain ⟨fp, suf, b, hfl, hskip, hb, hbfree, hfit, -⟩ :=
      mallocGo_some_inv _ _ _ o bs2 fl2 hgo
    refine ⟨fp, o, suf, b, hfl, hp2, hb, hbfree, hfit, ?_⟩
    intro o2 ho2
    obtain ⟨b2, hb2, hno⟩ := hskip o2 ho2
    have ho2fl : o2 ∈ s.freeList := by
      rw [hfl]; exact List.mem_append_left _ ho2
    obtain ⟨b3, hb3, hb3f⟩ := (hw.hmem o2).mp ho2fl
    rw [hb2] at hb3
    cases hb3
    refine ⟨b2, hb2, hb3f, ?_⟩
    by_contra hc
    exact hno ⟨hb3f, by omega⟩

/-- C5 witness: first fit instantiated at the initial pool for a 1-byte
request, whose handle is 24 = 0 + header size. -/
theorem malloc_first_fit_witness :
    ∃ fp o suf b, initState.freeList = fp ++ o :: suf ∧
      24 = o + HEADER_SIZE ∧
      blockAt initState.blocks 0 o = some b ∧ b.is_free = true ∧
      totalNeeded 1 ≤ b.size ∧
      ∀ o2 ∈ fp, ∃ b2, blockAt initState.blocks 0 o2 = some b2 ∧
        b2.is_free = true ∧ b2.size < totalNeeded 1 :=
  malloc_first_fit initState (Reachable.step_init Reachable.base) rfl 1
    (by decide) 24 (by decide)

/-- C6: Rejected deallocate causes no mutation — in every state,
`my_free` leaves the state (pool blocks, free-list head, everything)
unchanged whenever its argument is the null handle, or the derived block
address (handle minus header size) lies outside `[0, POOL_SIZE)`, or the
derived address carries a block whose `is_free` flag is already true
(double free). -/
theorem free_rejected_noop (s : AllocState) (p : Option Int)
    (h : p = none
      ∨ (∃ q, p = some q ∧
          (q - (HEADER_SIZE : Int) < 0 ∨
            (POOL_SIZE : Int) ≤ q - (HEADER_SIZE : Int)))
      ∨ (∃ q b, p = some q ∧
          blockAt s.blocks 0 (q - (HEADER_SIZE : Int)).toNat = some b ∧
          b.is_free = true)) :
    my_free s p = s := by
  rcases h with rfl | ⟨q, rfl, hq⟩ | ⟨q, b, rfl, hb, hbf⟩
  · rfl
  · by_cases hni : s.inited = false
    · simp only [my_free, if_pos hni]
    · simp only [my_free, if_neg hni, if_pos hq]
  · by_cases hni : s.inited = false
    · simp only [my_free, if_pos hni]
    · by_cases hd : (q - (HEADER_SIZE : Int) < 0 ∨
          (POOL_SIZE : Int) ≤ q - (HEADER_SIZE : Int))
      · simp only [my_free, if_neg hni, if_pos hd]
      · simp only [my_free, if_neg hni, if_neg hd, hb, if_pos hbf]

/-- C6 witness: freeing the null handle in the initialized pool changes
nothing. -/
theorem free_rejected_noop_witness : my_free initState none = initState :=
  free_rejected_noop initState none (Or.inl rfl)

/-- C7 counterexample: the claim quantifies over every allocator state, but
on the never-initialized start state `allocate(0)` runs the transparent
initialization before the zero-size check (source lines 83-88), so it does
return null yet mutates the allocator state (writes the initial header and
retargets the free-list head). -/
theorem malloc_zero_uninit_mutates :
    (my_malloc uninitState 0).1 = none ∧
      (my_malloc uninitState 0).2 ≠ uninitState := by
  exact ⟨rfl, by decide⟩

/-- C7 amended: `allocate(0)` always returns the null handle, and the
resulting state is exactly the auto-initialized pre-call state — so on any
already-initialized state (where `my_allocator_init` is the identity) the
call changes nothing, and from the uninitialized state its only effect is
the transparent initialization. -/
theorem malloc_zero_noop (s : AllocState) :
    (my_malloc s 0).1 = none ∧ (my_malloc s 0).2 = my_allocator_init s :=
  ⟨rfl, rfl⟩

/-- C8: Out-of-memory atomicity — on a reachable initialized state, if no
free-list block has size at least `needed(n)` (with `n > 0`), then
`allocate(n)` returns null and the state is completely unchanged. -/
theorem malloc_oom_noop (s : AllocState) (_hs : Reachable s)
    (hi : s.inited = true) (n : Nat) (hn : 0 < n)
    (hno : ∀ o ∈ s.freeList, ∀ b, blockAt s.blocks 0 o = some b →
      b.size < totalNeeded n) :
    my_malloc s n = (none, s) := by
  have hinit : my_allocator_init s = s := init_of_inited hi
  have hn' : ¬ n = 0 := by omega
  have hgo : mallocGo s.blocks (totalNeeded n) s.freeList = none := by
    apply mallocGo_none
    intro o ho b hb hc
    have h1 := hno o ho b hb
    have h2 := hc.2
    omega
  simp only [my_malloc, hinit, if_neg hn', hgo]

/-- C8 witness: requesting `POOL_SIZE` bytes from the freshly initialized
pool needs 1048600 bytes, more than the single 1048576-byte free block, so
the call fails and the state is untouched. -/
theorem malloc_oom_noop_witness :
    my_malloc initState POOL_SIZE = (none, initState) := by
  apply malloc_oom_noop initState (Reachable.step_init Reachable.base) rfl
    POOL_SIZE (by decide)
  intro o ho b hb
  simp only [initState, List.mem_singleton] at ho
  subst ho
  have hb2 : blockAt initState.blocks 0 0 = some (Block.mk POOL_SIZE true) := rfl
  rw [hb2] at hb
  rw [← Option.some.inj hb]
  decide

/-- C9: Returned handles are aligned and interior — every handle returned
by a successful `allocate` is the selected (now allocated) block's start
address plus the header size, is a multiple of the pointer-size alignment
unit, and lies strictly inside the pool: at least `HEADER_SIZE` bytes after
the pool start and strictly before the pool end. -/
theorem malloc_handle_aligned (s : AllocState) (hs : Reachable s)
    (n p : Nat) (hp : (my_malloc s n).1 = some p) :
    ∃ o b, blockAt (my_malloc s n).2.blocks 0 o = some b ∧
      b.is_free = false ∧ p = o + HEADER_SIZE ∧
      p % ALIGNMENT = 0 ∧ HEADER_SIZE ≤ p ∧ p < POOL_SIZE := by
  obtain ⟨hi1, hw1⟩ := wf_after_init (reachable_inv hs)
  have hn' : ¬ n = 0 := by
    intro hn0
    subst hn0
    rw [show (my_malloc s 0).1 = none from rfl] at hp
    exact Option.noConfusion hp
  cases hgo : mallocGo (my_allocator_init s).blocks (totalNeeded n)
      (my_allocator_init s).freeList with
  | none =>
    have hnone : (my_malloc s n).1 = none := by
      simp only [my_malloc, if_neg hn', hgo]
    rw [hnone] at hp
    exact Option.noConfusion hp
  | some t =>
    obtain ⟨o, bs2, fl2⟩ := t
    have hres : my_malloc s n
        = (some (o + HEADER_SIZE),
            AllocState.mk bs2 fl2 (my_allocator_init s).inited) := by
      simp only [my_malloc, if_neg hn', hgo]
    have hp2 : p = o + HEADER_SIZE := by
      rw [hres] at hp
      exact (Option.some.inj hp).symm
    obtain ⟨fp, suf, b, hfl, hskip, hb, hbfree, hfit, hbr⟩ :=
      mallocGo_some_inv _ _ _ o bs2 fl2 hgo
    have hpos := wf_pos hw1.hmin
    obtain ⟨l, r, hbs, hwl⟩ := blockAt_decomp hb
    have hposl : ∀ x ∈ l, 0 < x.size := fun x hx =>
      hpos x (by rw [hbs]; exact List.mem_append_left _ hx)
    have halignl : sumSizes l % ALIGNMENT = 0 :=
      sumSizes_mod l fun x hx =>
        hw1.halign x (by rw [hbs]; exact List.mem_append_left _ hx)
    have ho8 : o % ALIGNMENT = 0 := by
      rw [← hwl, walkEnd_eq]
      simpa using halignl
    have hbend : o + b.size ≤ POOL_SIZE := by
      have h2 := blockAt_add_le hb
      rw [walkEnd_eq, hw1.hsum] at h2
      simpa using h2
    have hbmin : HEADER_SIZE + ALIGNMENT ≤ b.size := hw1.hmin b (blockAt_mem hb)
    have hal : (o + HEADER_SIZE) % ALIGNMENT = 0 := by
      simp only [HEADER_SIZE, ALIGNMENT] at ho8 ⊢
      omega
    have hlow : HEADER_SIZE ≤ o + HEADER_SIZE := by omega
    have hhigh : o + HEADER_SIZE < POOL_SIZE := by
      simp only [HEADER_SIZE, ALIGNMENT] at hbmin ⊢
      omega
    rcases hbr with ⟨hsp, rfl, rfl⟩ | ⟨hsp, rfl, rfl⟩
    · have hsplitdec : splitBlock (my_allocator_init s).blocks o (totalNeeded n)
          = l ++ [Block.mk (totalNeeded n) false,
              Block.mk (b.size - totalNeeded n) true] ++ r := by
        rw [splitBlock, hbs, ← hwl]
        exact updAt_decomp l b r _ 0 hposl
      have hA1 : blockAt (splitBlock (my_allocator_init s).blocks o
            (totalNeeded n)) 0 o = some (Block.mk (totalNeeded n) false) := by
        rw [hsplitdec, ← hwl]
        have h3 := blockAt_of_decomp l (Block.mk (totalNeeded n) false)
          (Block.mk (b.size - totalNeeded n) true :: r) 0 hposl
        simpa using h3
      exact ⟨o, Block.mk (totalNeeded n) false, by rw [hres]; exact hA1, rfl,
        hp2, by rw [hp2]; exact hal, by rw [hp2]; exact hlow,
        by rw [hp2]; exact hhigh⟩
    · obtain ⟨hB1, hB2, hSum, hMem⟩ :=
        updFlag_blockAt (my_allocator_init s).blocks o b false hpos hb
      exact ⟨o, Block.mk b.size false, by rw [hres]; exact hB1, rfl,
        hp2, by rw [hp2]; exact hal, by rw [hp2]; exact hlow,
        by rw [hp2]; exact hhigh⟩

/-- C9 witness: the first allocation (even from the uninitialized state,
via transparent init) returns handle 24, which is 8-aligned and interior. -/
theorem malloc_handle_aligned_witness :
    ∃ o b, blockAt (my_malloc uninitState 5).2.blocks 0 o = some b ∧
      b.is_free = false ∧ 24 = o + HEADER_SIZE ∧
      24 % ALIGNMENT = 0 ∧ HEADER_SIZE ≤ 24 ∧ 24 < POOL_SIZE :=
  malloc_handle_aligned uninitState Reachable.base 5 24 (by decide)

/-- C10: Deallocate before initialization is a total no-op — for every
pointer value, null or not, `my_free` on a state whose
`allocator_initialized` flag is still clear returns the state unchanged, in
particular without performing the transparent initialization that
`my_malloc` would run. -/
theorem free_uninit_noop (s : AllocState) (p : Option Int)
    (h : s.inited = false) : my_free s p = s := by
  cases p with
  | none => rfl
  | some q => simp only [my_free, if_pos h]

/-- C10 witness: freeing an arbitrary non-null pointer before any
initialization leaves the start state untouched. -/
theorem free_uninit_noop_witness : my_free uninitState (some 500) = uninitState :=
  free_uninit_noop uninitState (some 500) rfl

end CustomAllocator
